import Mathlib

/-!
Verification of the core logic of "the-jam-session" (src/components/JamApp.tsx and
src/lib/supabase.ts): the weighted vetoable lottery, the duplicate detector and
suggestion helper, and the personal ranking helper.

JavaScript strings are modelled as lists of characters (`JStr`), JavaScript
numbers occurring as vote counts and weights as `Nat`, and the single call to
`Math.random()` scaled to an integer range as an injected function
`rand : Nat → Nat`, where `rand m` stands for `Math.floor(Math.random() * m)`.
-/

namespace JamSession

/-- JavaScript strings, modelled as lists of characters. -/
abbrev JStr := List Char

/-- Aggregated per-album vote counts, as produced by `fetchStats` in
`src/lib/supabase.ts`: `c1` counts the value-1 ("most wanted") votes, `c2` the
value-2 ("somewhat wanted") votes, `c3` the value-3 (veto) votes. -/
structure Stats where
  c1 : Nat
  c2 : Nat
  c3 : Nat
deriving DecidableEq

/-- An album row as used by the realtime version of `JamApp.tsx` (the `Album`
type there: id, title, artist, optional cover, creation time). -/
structure Album where
  id : JStr
  title : JStr
  artist : JStr
  cover : Option JStr
  createdAt : Nat
deriving DecidableEq

/-- `hasBlockFromStats` from `JamApp.tsx`: `!!s && s.c3 > 0` — an absent tally
is not blocked, a present tally is blocked exactly when it has a veto. -/
def hasBlockFromStats : Option Stats → Bool
  | none => false
  | some s => decide (0 < s.c3)

/-- `weightFromStats` from `JamApp.tsx`: absent tally gives weight 1; a vetoed
tally gives weight 0; otherwise `c1 * 5 + c2 * 3`, floored at 1. -/
def weightFromStats : Option Stats → Nat
  | none => 1
  | some s =>
    if 0 < s.c3 then 0
    else
      let w := s.c1 * 5 + s.c2 * 3
      if 0 < w then w else 1

/-- `hasBlock` from the first (local-storage) version in `JamApp.tsx`:
`Object.values(votes).some(v => v === 3)`.  A vote map is modelled by the list
of its values. -/
def hasBlock (votes : List Nat) : Bool :=
  votes.any (fun v => v == 3)

/-- `weightFromVotes` from the first version in `JamApp.tsx`: add 5 per value-1
vote and 3 per value-2 vote, and replace a zero result by 1. -/
def weightFromVotes (votes : List Nat) : Nat :=
  let w := votes.foldl (fun acc v => if v == 1 then acc + 5 else if v == 2 then acc + 3 else acc) 0
  if 0 < w then w else 1

/-- One entry of the pool built inside `pickByRules`:
`{ album: a, weight: weightFromStats(s), blocked: hasBlockFromStats(s) }`. -/
structure PoolEntry where
  album : Album
  weight : Nat
  blocked : Bool
deriving DecidableEq

/-- The mapped (pre-filter) pool of `pickByRules`. -/
def ratedPool (albums : List Album) (stats : JStr → Option Stats) : List PoolEntry :=
  albums.map (fun a => ⟨a, weightFromStats (stats a.id), hasBlockFromStats (stats a.id)⟩)

/-- The filtered pool of `pickByRules` (`.filter(x => !x.blocked)`). -/
def eligiblePool (albums : List Album) (stats : JStr → Option Stats) : List PoolEntry :=
  (ratedPool albums stats).filter (fun x => !x.blocked)

/-- Total tickets: `pool.reduce((acc, x) => acc + x.weight, 0)`. -/
def poolTotal (pool : List PoolEntry) : Nat :=
  (pool.map (fun x => x.weight)).sum

/-- The subtraction walk shared by `weightedPick` and `pickByRules`:
`for (x of pool) { r -= x.weight; if (r <= 0) return x }`.  Starting from
`r ≥ 1`, the JavaScript test `r - w <= 0` on the running integer is exactly
`r ≤ w` on the remaining natural number, which stays `≥ 1` on the else branch. -/
def loopPick : List PoolEntry → Nat → Option PoolEntry
  | [], _ => none
  | x :: xs, r => if r ≤ x.weight then some x else loopPick xs (r - x.weight)

/-- Index form of the subtraction walk, over the bare list of weights. -/
def pickIdx : List Nat → Nat → Option Nat
  | [], _ => none
  | w :: ws, r => if r ≤ w then some 0 else (pickIdx ws (r - w)).map (fun i => i + 1)

/-- `weightedPick` from the first version in `JamApp.tsx`:
`r = Math.floor(Math.random() * tickets) + 1`, walk the pool, and fall back to
the last pool element if the walk runs off the end. -/
def weightedPick (pool : List PoolEntry) (tickets : Nat) (rand : Nat → Nat) : Option Album :=
  let r := rand tickets + 1
  match loopPick pool r with
  | some x => some x.album
  | none => (pool.getLast?).map (fun x => x.album)

/-- `pickByRules` from the realtime version in `JamApp.tsx`.  The second
component counts how many times `Math.random()` was consulted: the code draws
once in the all-vetoed fallback branch and once in the weighted branch, and not
at all when there are no albums.  The result component is the album passed to
`setPicked` (`none` when the function returns without picking). -/
def pickByRules (albums : List Album) (stats : JStr → Option Stats) (rand : Nat → Nat) :
    Option Album × Nat :=
  let pool := eligiblePool albums stats
  if pool.isEmpty then
    if albums.isEmpty then (none, 0)
    else (albums[rand albums.length]?, 1)
  else
    let total := poolTotal pool
    let r := rand total + 1
    match loopPick pool r with
    | some y => (some y.album, 1)
    | none => ((pool.getLast?).map (fun y => y.album), 1)

/-- A concrete album used in witnesses and counterexamples. -/
def demoAlbum : Album := ⟨['i'], ['t'], ['r'], none, 0⟩

/-- A concrete stats snapshot assigning every album one "most wanted" vote. -/
def demoStatsOne : JStr → Option Stats := fun _ => some ⟨1, 0, 0⟩

/-- A second concrete album, distinct from `demoAlbum`. -/
def demoAlbum2 : Album := ⟨['j'], ['u'], ['s'], none, 1⟩

/-- A concrete stats snapshot vetoing every album. -/
def demoStatsVeto : JStr → Option Stats := fun _ => some ⟨0, 0, 1⟩

/-- Tally accessor treating an absent tally as zero counts. -/
def tallyC1 (s : Option Stats) : Nat := (s.map Stats.c1).getD 0

/-- Tally accessor treating an absent tally as zero counts. -/
def tallyC2 (s : Option Stats) : Nat := (s.map Stats.c2).getD 0

/-- Tally accessor treating an absent tally as zero counts. -/
def tallyC3 (s : Option Stats) : Nat := (s.map Stats.c3).getD 0

/-- JavaScript whitespace as it occurs in this app (space, tab, newline,
carriage return): the characters matched by `\s` and stripped by
`String.prototype.trim`. -/
def isWsChar (c : Char) : Bool :=
  c == ' ' || c == '\t' || c == '\n' || c == '\r'

/-- `String.prototype.trim`: drop whitespace from both ends. -/
def trimL (s : JStr) : JStr :=
  ((s.dropWhile isWsChar).reverse.dropWhile isWsChar).reverse

/-- `String.prototype.toLowerCase` on the ASCII fragment used here: Lean's
`Char.toLower` lowers exactly the letters `A`–`Z`, as JavaScript does on ASCII
input. -/
def lowerL (s : JStr) : JStr := s.map Char.toLower

/-- Helper for `collapseWs`: the boolean records whether the previous character
was whitespace, so that the current run has already emitted its single space. -/
def collapseWsAux : Bool → JStr → JStr
  | _, [] => []
  | prevWs, c :: cs =>
    if isWsChar c then
      if prevWs then collapseWsAux true cs
      else ' ' :: collapseWsAux true cs
    else c :: collapseWsAux false cs

/-- `replace(/\s+/g, " ")`: collapse every maximal whitespace run to a single
space. -/
def collapseWs (s : JStr) : JStr := collapseWsAux false s

/-- `norm` from `JamApp.tsx`: `s.trim().toLowerCase().replace(/\s+/g, " ")`. -/
def normL (s : JStr) : JStr := collapseWs (lowerL (trimL s))

/-- The duplicate key built by `addAlbum`: the template literal
`${t.toLowerCase()}::${a.toLowerCase()}`. -/
def dupKey (t a : JStr) : JStr := lowerL t ++ ':' :: ':' :: lowerL a

/-- The exact-duplicate test of `addAlbum` in the realtime `JamApp.tsx`: the
incoming labels arrive trimmed (`newAlbumTitle.trim()`), are lower-cased and
joined with `::`, and the key is compared against the same key built from each
stored album's labels — which are lower-cased but neither trimmed nor
whitespace-collapsed. -/
def isExactDuplicate (title artist : JStr) (albums : List Album) : Bool :=
  albums.any (fun al => dupKey al.title al.artist == dupKey (trimL title) (trimL artist))

/-- Modelled from the spec: the duplicate check as the specification describes
it — normalize every label with the full normalization (trim surrounding
whitespace, case-fold, collapse internal whitespace runs) and compare the
normalized pairs. -/
def specIsExactDuplicate (title artist : JStr) (albums : List Album) : Bool :=
  albums.any (fun al => normL al.title == normL title && normL al.artist == normL artist)

/-- Primary collation weight of a character under the ECMAScript default
(`String.prototype.localeCompare` with the ICU root collation), restricted to
the ASCII fragment: whitespace sorts before digits, digits before letters, and
letters compare case-insensitively at this level; all remaining characters are
placed after letters as an approximation that is unused by the theorems
below. -/
def primW (c : Char) : Nat :=
  if isWsChar c then 1
  else if c.isDigit then 10 + c.toNat
  else if c.isAlpha then 100 + (Char.toLower c).toNat
  else 1000 + c.toNat

/-- Tertiary collation weight: at equal primary weights the ICU root collation
orders lowercase before uppercase. -/
def tertW (c : Char) : Nat :=
  if c.isUpper then 1 else 0

/-- Collation key of a string: the primary weight sequence, then (for ties) the
tertiary weight sequence, compared lexicographically. -/
def icuKey (s : JStr) : Lex (List Nat × List Nat) :=
  toLex (s.map primW, s.map tertW)

/-- Model of `String.prototype.localeCompare` under the default (ICU root)
collation on the ASCII fragment: `-1`, `0` or `1` according to the collation
keys.  Note this differs from code-point lexicographic comparison: primary
comparison is case-insensitive (so `'a' < 'B'`), and at equal primary weights
lowercase sorts first (so `"ab" < "aB"`), whereas by code points `'B' < 'a'`
and `"aB" < "ab"`. -/
def localeCompareM (a b : JStr) : Int :=
  if icuKey a < icuKey b then -1 else if icuKey b < icuKey a then 1 else 0

/-- The current user's preference for an album, with the unvoted sentinel:
`myVotes[a.id] ?? 99`. -/
def voteVal (myVotes : JStr → Option Nat) (a : Album) : Nat :=
  (myVotes a.id).getD 99

/-- The comparator of `rankAlbumsByMyVote`:
vote value first (`va - vb`, nonzero when the values differ), then
`localeCompare` on titles (when nonzero), then `localeCompare` on artists. -/
def cmpAlbums (myVotes : JStr → Option Nat) (a b : Album) : Int :=
  if (voteVal myVotes a : Int) ≠ (voteVal myVotes b : Int) then
    (voteVal myVotes a : Int) - (voteVal myVotes b : Int)
  else if localeCompareM a.title b.title ≠ 0 then localeCompareM a.title b.title
  else localeCompareM a.artist b.artist

/-- The lexicographic sort key realized by `cmpAlbums`: vote value (with the
99 sentinel), then the title collation key, then the artist collation key. -/
def rankKey (myVotes : JStr → Option Nat) (a : Album) :
    Lex (Nat × Lex (Lex (List Nat × List Nat) × Lex (List Nat × List Nat))) :=
  toLex (voteVal myVotes a, toLex (icuKey a.title, icuKey a.artist))

/-- `rankAlbumsByMyVote` from `JamApp.tsx`: a stable sort of a copy of the
album list by the comparator (JavaScript `Array.prototype.sort` is stable and
is modelled by the stable `List.mergeSort`). -/
def rankAlbumsByMyVote (albums : List Album) (myVotes : JStr → Option Nat) : List Album :=
  albums.mergeSort (fun a b => decide (cmpAlbums myVotes a b ≤ 0))

/-- Modelled from the spec: the ranking as the specification describes it —
ascending by vote value with unvoted mapped to a larger sentinel, ties broken
by case-sensitive-as-typed lexicographic (code-point) comparison of the title,
then the artist. -/
def specRankAlbumsByMyVote (albums : List Album) (myVotes : JStr → Option Nat) : List Album :=
  albums.mergeSort (fun a b =>
    decide (toLex (voteVal myVotes a, toLex (a.title, a.artist)) ≤
      toLex (voteVal myVotes b, toLex (b.title, b.artist))))

/-- A raw row of the votes table: user id, album id, preference value. -/
structure VoteRow where
  user : JStr
  album : JStr
  value : Nat
deriving DecidableEq

/-- `fetchMyVotes` from `src/lib/supabase.ts`: select the rows of one user and
fold them into an album-keyed map (`map[row.album_id] = row.value`, later rows
overwriting earlier ones). -/
def myVotesOf (uid : JStr) (rows : List VoteRow) : JStr → Option Nat :=
  fun alb =>
    ((rows.filter (fun r => r.user == uid && r.album == alb)).getLast?).map (fun r => r.value)

/-- Replacement of one user's rows in the vote store: the effect of user `uid`
changing their votes to `newRows` (all rows of `uid`, and only those, are
replaced). -/
def setUserVotes (uid : JStr) (newRows rows : List VoteRow) : List VoteRow :=
  rows.filter (fun r => !(r.user == uid)) ++ newRows

/-- One inner-loop pass of the `levenshtein` dynamic program from
`JamApp.tsx`: given the current character `x = a[i-1]`, the remaining
characters of `b` (from position `j-1`), the matching tail of the previous row
(starting at the cell `dp[i-1][j-1]`) and the cell to the left
(`dp[i][j-1]`), compute the remaining cells
`min(dp[i-1][j] + 1, dp[i][j-1] + 1, dp[i-1][j-1] + cost)` of row `i`. -/
def levStep (x : Char) : JStr → List Nat → Nat → List Nat
  | [], _, _ => []
  | y :: ys, p0 :: p1 :: ps, left =>
    let cost : Nat := if x = y then 0 else 1
    let cell := min (p1 + 1) (min (left + 1) (p0 + cost))
    cell :: levStep x ys (p1 :: ps) cell
  | _ :: _, _, _ => []

/-- The outer loop of `levenshtein`: starting from row 0 (`[0..n]`), build row
`i` as `i :: levStep a[i-1] b (row (i-1)) i` for each character of `a`. -/
def levRows (b : JStr) : JStr → List Nat → Nat → List Nat
  | [], prev, _ => prev
  | x :: xs, prev, i => levRows b xs (i :: levStep x b prev i) (i + 1)

/-- `levenshtein` from `JamApp.tsx`: the dynamic program over the
`(a.length+1) × (b.length+1)` table with the early returns for empty inputs;
the result is the last cell `dp[m][n]` of the final row. -/
def levenshtein (a b : JStr) : Nat :=
  if a.length = 0 then b.length
  else if b.length = 0 then a.length
  else (levRows b a (List.range (b.length + 1)) 1).getD b.length 0

/-- The textbook prefix recurrence implemented by the table of `levenshtein`:
`levSpec a b i j` is the edit distance (single-character insertions, deletions
and substitutions, substitution free exactly on equal characters) between the
first `i` characters of `a` and the first `j` characters of `b`. -/
def levSpec (a b : JStr) : Nat → Nat → Nat
  | 0, j => j
  | i + 1, 0 => i + 1
  | i + 1, j + 1 =>
    min (levSpec a b i (j + 1) + 1)
      (min (levSpec a b (i + 1) j + 1)
        (levSpec a b i j + (if a.getD i ' ' = b.getD j ' ' then 0 else 1)))
termination_by i j => (i, j)

/-- The comparator of the suggestion sort in `suggestClose`: ascending
distance (`x.d - y.d`, nonzero exactly when the distances differ), ties by
`localeCompare` of the candidate strings. -/
def cmpScored (x y : JStr × Nat) : Int :=
  if (x.2 : Int) ≠ (y.2 : Int) then (x.2 : Int) - (y.2 : Int)
  else localeCompareM x.1 y.1

/-- The lexicographic key realized by `cmpScored`. -/
def scoredKey (x : JStr × Nat) : Lex (Nat × Lex (List Nat × List Nat)) :=
  toLex (x.2, icuKey x.1)

/-- `suggestClose` from `JamApp.tsx` (the call sites use the default
`maxDistance = 2`): score every candidate by the Levenshtein distance between
the normalized input and the normalized candidate, sort by distance with
`localeCompare` tie-break, keep distances `≤ maxDistance`, cap at 5, and
return the candidate strings.  An input normalizing to the empty string yields
no suggestions. -/
def suggestClose (input : JStr) (candidates : List JStr) (maxDistance : Nat) : List JStr :=
  let inp := normL input
  if inp = [] then []
  else
    let scored := candidates.map (fun c => (c, levenshtein inp (normL c)))
    let sorted := scored.mergeSort (fun x y => decide (cmpScored x y ≤ 0))
    ((sorted.filter (fun x => x.2 ≤ maxDistance)).take 5).map (fun x => x.1)

/-- Modelled from the spec: suggestions sorted by ascending distance with ties
broken by code-point lexicographic order of the candidate string. -/
def specSuggestClose (input : JStr) (candidates : List JStr) (maxDistance : Nat) : List JStr :=
  let inp := normL input
  if inp = [] then []
  else
    let scored := candidates.map (fun c => (c, levenshtein inp (normL c)))
    let sorted := scored.mergeSort (fun x y => decide (toLex (x.2, x.1) ≤ toLex (y.2, y.1)))
    ((sorted.filter (fun x => x.2 ≤ maxDistance)).take 5).map (fun x => x.1)

/-- The stored album of the specification's own duplicate-detection example. -/
def blueAlbum : Album := ⟨['b'], ("blue".data), ("joni mitchell".data), none, 0⟩

/-- An album whose title is the single lowercase letter `a` (tie-break
example). -/
def tieAlbumA : Album := ⟨['1'], ['a'], ['x'], none, 0⟩

/-- An album whose title is the single uppercase letter `B` (tie-break
example). -/
def tieAlbumB : Album := ⟨['2'], ['B'], ['x'], none, 0⟩

theorem weightFromStats_some (s : Stats) :
    weightFromStats (some s) =
      if 0 < s.c3 then 0 else if 0 < s.c1 * 5 + s.c2 * 3 then s.c1 * 5 + s.c2 * 3 else 1 := rfl

theorem hasBlockFromStats_eq_false {s : Stats} (h : hasBlockFromStats (some s) = false) :
    s.c3 = 0 := by
  simpa [hasBlockFromStats] using h

theorem weightFromStats_pos {s : Option Stats} (h : hasBlockFromStats s = false) :
    1 ≤ weightFromStats s := by
  cases s with
  | none => simp [weightFromStats]
  | some s =>
    rw [weightFromStats_some, hasBlockFromStats_eq_false h]
    split
    · omega
    · split <;> omega

theorem mem_eligiblePool {albums : List Album} {stats : JStr → Option Stats} {x : PoolEntry}
    (hx : x ∈ eligiblePool albums stats) :
    x.album ∈ albums ∧ x.blocked = false ∧
      x.blocked = hasBlockFromStats (stats x.album.id) ∧
      x.weight = weightFromStats (stats x.album.id) := by
  rcases List.mem_filter.mp hx with ⟨hmem, hbl⟩
  rcases List.mem_map.mp hmem with ⟨a, ha, rfl⟩
  simp only [Bool.not_eq_eq_eq_not, Bool.not_true] at hbl
  exact ⟨ha, by simp [hbl], by simp [hbl], rfl⟩

/-- C1.  The eligibility-and-weight rule of the lottery: a tally is vetoed
(blocked) exactly when its veto count is positive (an absent tally counting as
all-zero); vetoed tallies get weight 0; a non-vetoed tally gets weight
`5*c1 + 3*c2` except that a zero result (including the absent tally) is
replaced by the minimum weight 1, so every non-vetoed tally has weight at
least 1, and every entry of the drawable pool is unblocked with weight at
least 1. -/
theorem eligibility_weight_rule (s : Option Stats) :
    (hasBlockFromStats s = true ↔ 0 < tallyC3 s)
    ∧ (hasBlockFromStats s = true → weightFromStats s = 0)
    ∧ (hasBlockFromStats s = false →
        weightFromStats s =
          (if tallyC1 s * 5 + tallyC2 s * 3 = 0 then 1 else tallyC1 s * 5 + tallyC2 s * 3)
        ∧ 1 ≤ weightFromStats s)
    ∧ (∀ (albums : List Album) (stats : JStr → Option Stats) (x : PoolEntry),
        x ∈ eligiblePool albums stats → x.blocked = false ∧ 1 ≤ x.weight) := by
  refine ⟨?_, ?_, ?_, ?_⟩
  · cases s with
    | none => simp [hasBlockFromStats, tallyC3]
    | some s => simp [hasBlockFromStats, tallyC3]
  · cases s with
    | none => simp [hasBlockFromStats]
    | some s =>
      intro h
      simp only [hasBlockFromStats, decide_eq_true_eq] at h
      simp [weightFromStats, h]
  · intro h
    refine ⟨?_, weightFromStats_pos h⟩
    cases s with
    | none => simp [weightFromStats, tallyC1, tallyC2]
    | some s =>
      rw [weightFromStats_some, hasBlockFromStats_eq_false h]
      have e1 : tallyC1 (some s) = s.c1 := rfl
      have e2 : tallyC2 (some s) = s.c2 := rfl
      rw [e1, e2, if_neg (Nat.lt_irrefl 0)]
      by_cases hw : s.c1 * 5 + s.c2 * 3 = 0
      · simp [hw]
      · simp [hw, Nat.pos_of_ne_zero hw]
  · intro albums stats x hx
    obtain ⟨_, hbl, hb, hw⟩ := mem_eligiblePool hx
    refine ⟨hbl, ?_⟩
    rw [hw]
    exact weightFromStats_pos (by rw [← hb, hbl])

theorem eligibility_weight_rule_witness :
    weightFromStats (some ⟨2, 1, 0⟩) = 13 ∧ weightFromStats (some ⟨0, 0, 2⟩) = 0 := by
  constructor
  · have h := (eligibility_weight_rule (some ⟨2, 1, 0⟩)).2.2.1 (by decide)
    simpa using h.1
  · exact (eligibility_weight_rule (some ⟨0, 0, 2⟩)).2.1 (by decide)

theorem weightFromVotes_foldl (votes : List Nat) (n : Nat) :
    votes.foldl (fun acc v => if v == 1 then acc + 5 else if v == 2 then acc + 3 else acc) n =
      n + votes.count 1 * 5 + votes.count 2 * 3 := by
  induction votes generalizing n with
  | nil => simp
  | cons v vs ih =>
    simp only [List.foldl_cons, List.count_cons, ih]
    by_cases h1 : v = 1
    · simp [h1]; omega
    · by_cases h2 : v = 2
      · simp [h2]; omega
      · have b1 : (v == 1) = false := by simpa using h1
        have b2 : (v == 2) = false := by simpa using h2
        have c1 : ((1 : Nat) == v) = false := by simpa using fun h => h1 h.symm
        have c2 : ((2 : Nat) == v) = false := by simpa using fun h => h2 h.symm
        simp [b1, b2, c1, c2]

/-- C10.  The two lottery pipelines agree: when a tally holds exactly the counts
of value-1, value-2 and value-3 entries of a raw vote map, the raw-votes
blocking test `hasBlock` coincides with the stats-based `hasBlockFromStats`,
and on non-blocked vote maps `weightFromVotes` coincides with
`weightFromStats`. -/
theorem votes_stats_refinement (votes : List Nat) :
    hasBlock votes = hasBlockFromStats (some ⟨votes.count 1, votes.count 2, votes.count 3⟩)
    ∧ (hasBlock votes = false →
        weightFromVotes votes =
          weightFromStats (some ⟨votes.count 1, votes.count 2, votes.count 3⟩)) := by
  constructor
  · by_cases h : 3 ∈ votes
    · have h1 : hasBlock votes = true := List.any_eq_true.mpr ⟨3, h, by simp⟩
      have h2 : hasBlockFromStats (some ⟨votes.count 1, votes.count 2, votes.count 3⟩) = true := by
        simp [hasBlockFromStats, List.count_pos_iff, h]
      rw [h1, h2]
    · have h0 : votes.count 3 = 0 := List.count_eq_zero.mpr h
      have h1 : hasBlock votes = false := by
        unfold hasBlock
        rw [List.any_eq_false]
        intro v hv hb
        exact h ((beq_iff_eq.mp hb) ▸ hv)
      have h2 : hasBlockFromStats (some ⟨votes.count 1, votes.count 2, votes.count 3⟩) = false := by
        simp [hasBlockFromStats, h0]
      rw [h1, h2]
  · intro hnb
    have h3 : votes.count 3 = 0 := by
      rw [List.count_eq_zero]
      intro hmem
      have htrue : hasBlock votes = true := List.any_eq_true.mpr ⟨3, hmem, by simp⟩
      rw [hnb] at htrue
      exact absurd htrue (by simp)
    rw [weightFromStats_some]
    simp only [h3, Nat.lt_irrefl, if_false]
    simp only [weightFromVotes, weightFromVotes_foldl, Nat.zero_add]

theorem votes_stats_refinement_witness :
    weightFromVotes [1, 2, 2] = weightFromStats (some ⟨1, 2, 0⟩) := by
  have h := (votes_stats_refinement [1, 2, 2]).2 (by decide)
  simpa using h

/-- C4.  With zero active albums, `pickByRules` yields the "no pick" outcome as
a plain value (`none`) and never consults the random source (count 0). -/
theorem empty_candidates_no_draw (stats : JStr → Option Stats) (rand : Nat → Nat) :
    pickByRules [] stats rand = (none, 0) := rfl

/-- C5 counterexample.  With a pool of exactly one eligible album, `pickByRules`
does consult the random generator (the invocation count is 1, not 0), contrary
to the claimed singleton shortcut. -/
theorem singleton_consults_random_counterexample :
    ((pickByRules [demoAlbum] demoStatsOne (fun _ => 0)).2 = 0 → False)
    ∧ (pickByRules [demoAlbum] demoStatsOne (fun _ => 0)).2 = 1
    ∧ (pickByRules [demoAlbum] demoStatsOne (fun _ => 0)).1 = some demoAlbum := by
  refine ⟨?_, ?_, ?_⟩ <;> decide

/-- C5 as amended.  When the eligible pool is a singleton, `pickByRules` returns
that album for every possible random source — the random generator is consulted
(once), but no value it can produce changes the result. -/
theorem singleton_winner_for_any_random (albums : List Album) (stats : JStr → Option Stats)
    (rand : Nat → Nat) (x : PoolEntry) (hpool : eligiblePool albums stats = [x]) :
    pickByRules albums stats rand = (some x.album, 1) := by
  have key : ∀ (r : Nat),
      (match loopPick [x] r with
        | some y => ((some y.album, 1) : Option Album × Nat)
        | none => (([x].getLast?).map (fun y => y.album), 1)) = (some x.album, 1) := by
    intro r
    unfold loopPick
    by_cases h : r ≤ x.weight
    · rw [if_pos h]
    · rw [if_neg h]
      simp [loopPick]
  unfold pickByRules
  rw [hpool]
  exact key _

theorem singleton_winner_for_any_random_witness :
    pickByRules [demoAlbum] demoStatsOne (fun _ => 5) = (some demoAlbum, 1) :=
  singleton_winner_for_any_random _ _ _ ⟨demoAlbum, 5, false⟩ (by decide)

theorem pickIdx_eq_some_iff (ws : List Nat) : ∀ (r i : Nat), 1 ≤ r →
    (pickIdx ws r = some i ↔ (ws.take i).sum < r ∧ r ≤ (ws.take (i + 1)).sum) := by
  induction ws with
  | nil =>
    intro r i hr
    simp only [pickIdx, List.take_nil, List.sum_nil]
    constructor
    · intro h
      exact absurd h (by simp)
    · omega
  | cons w ws ih =>
    intro r i hr
    cases i with
    | zero =>
      simp only [pickIdx, List.take_succ_cons, List.take_zero, List.sum_cons, List.sum_nil]
      by_cases h : r ≤ w
      · simp only [if_pos h]
        constructor
        · intro
          omega
        · intro
          trivial
      · simp only [if_neg h]
        constructor
        · intro hm
          rcases Option.map_eq_some'.mp hm with ⟨a, _, ha⟩
          omega
        · intro
          omega
    | succ i =>
      by_cases h : r ≤ w
      · simp only [pickIdx, if_pos h, List.take_succ_cons, List.sum_cons]
        constructor
        · intro hm
          simp at hm
        · intro ⟨h1, _⟩
          have : 0 ≤ (ws.take i).sum := Nat.zero_le _
          omega
      · have hr2 : 1 ≤ r - w := by omega
        have hmap : (pickIdx ws (r - w)).map (fun j => j + 1) = some (i + 1) ↔
            pickIdx ws (r - w) = some i := by
          cases hp : pickIdx ws (r - w) <;> simp [hp]
        simp only [pickIdx, if_neg h, List.take_succ_cons, List.sum_cons, hmap,
          ih (r - w) i hr2]
        omega

theorem pickIdx_exists (ws : List Nat) : ∀ (r : Nat), 1 ≤ r → r ≤ ws.sum →
    ∃ i, pickIdx ws r = some i ∧ i < ws.length := by
  induction ws with
  | nil =>
    intro r h1 h2
    simp at h2
    omega
  | cons w ws ih =>
    intro r h1 h2
    by_cases h : r ≤ w
    · exact ⟨0, by simp [pickIdx, h], by simp⟩
    · have h2w : r - w ≤ ws.sum := by
        simp only [List.sum_cons] at h2
        omega
      obtain ⟨i, hi, hlen⟩ := ih (r - w) (by omega) h2w
      refine ⟨i + 1, by simp [pickIdx, h, hi], by simpa using hlen⟩

theorem loopPick_eq_pickIdx (pool : List PoolEntry) : ∀ (r : Nat),
    loopPick pool r = (pickIdx (pool.map (fun x => x.weight)) r).bind (fun j => pool[j]?) := by
  induction pool with
  | nil =>
    intro r
    simp [loopPick, pickIdx]
  | cons x xs ih =>
    intro r
    simp only [List.map_cons, loopPick, pickIdx]
    by_cases h : r ≤ x.weight
    · simp [h]
    · rw [if_neg h, if_neg h, ih (r - x.weight)]
      cases hp : pickIdx (xs.map (fun x => x.weight)) (r - x.weight) <;> simp [hp]

theorem pickIdx_count (ws : List Nat) (i : Nat) (hi : i < ws.length) :
    ((Finset.Icc 1 ws.sum).filter (fun r => pickIdx ws r = some i)).card = ws[i] := by
  have hstep : (ws.take (i + 1)).sum = (ws.take i).sum + ws[i] := List.sum_take_succ ws i hi
  have hle : (ws.take (i + 1)).sum ≤ ws.sum := by
    conv_rhs => rw [← List.take_append_drop (i + 1) ws]
    rw [List.sum_append]
    omega
  have hset : (Finset.Icc 1 ws.sum).filter (fun r => pickIdx ws r = some i) =
      Finset.Ioc ((ws.take i).sum) ((ws.take (i + 1)).sum) := by
    ext r
    simp only [Finset.mem_filter, Finset.mem_Icc, Finset.mem_Ioc]
    constructor
    · rintro ⟨⟨hr1, _⟩, hp⟩
      exact (pickIdx_eq_some_iff ws r i hr1).mp hp
    · rintro ⟨h1, h2⟩
      have hr1 : 1 ≤ r := by omega
      exact ⟨⟨hr1, by omega⟩, (pickIdx_eq_some_iff ws r i hr1).mpr ⟨h1, h2⟩⟩
  rw [hset, Nat.card_Ioc]
  omega

/-- C2.  The weighted draw is proportional: for a list of weights `ws` with
total `ws.sum`, the subtraction walk maps each `r` drawn from `[1, total]`
(both ends included) to the first index whose running weight sum reaches `r`,
and exactly `ws[i]` of the possible values of `r` select index `i` — so the
selection probability of the `i`-th entry is `ws[i] / total`.  Moreover
`weightedPick` realizes exactly this walk on the pool (consuming the one
random value `u` as `r = u + 1`), and in the weighted branch `pickByRules`
performs this very draw, consuming exactly one random value. -/
theorem weighted_draw_proportionality :
    (∀ (ws : List Nat) (i : Nat) (hi : i < ws.length),
      ((Finset.Icc 1 ws.sum).filter (fun r => pickIdx ws r = some i)).card = ws[i])
    ∧ (∀ (pool : List PoolEntry) (u : Nat), u < poolTotal pool →
        weightedPick pool (poolTotal pool) (fun _ => u) =
          (pickIdx (pool.map (fun x => x.weight)) (u + 1)).bind
            (fun j => (pool[j]?).map (fun x => x.album)))
    ∧ (∀ (albums : List Album) (stats : JStr → Option Stats) (rand : Nat → Nat),
        eligiblePool albums stats ≠ [] →
        pickByRules albums stats rand =
          (weightedPick (eligiblePool albums stats) (poolTotal (eligiblePool albums stats)) rand,
            1)) := by
  refine ⟨pickIdx_count, ?_, ?_⟩
  · intro pool u hu
    have hsum : u + 1 ≤ (pool.map (fun x => x.weight)).sum := hu
    obtain ⟨j, hj, hjl⟩ := pickIdx_exists (pool.map (fun x => x.weight)) (u + 1) (by omega) hsum
    have hjl2 : j < pool.length := by simpa using hjl
    simp [weightedPick, loopPick_eq_pickIdx, hj, List.getElem?_eq_getElem hjl2]
  · intro albums stats rand hne
    have hemp : (eligiblePool albums stats).isEmpty = false := by
      simpa [List.isEmpty_iff] using hne
    simp only [pickByRules, weightedPick, hemp, Bool.false_eq_true, if_false]
    cases hl : loopPick (eligiblePool albums stats)
        (rand (poolTotal (eligiblePool albums stats)) + 1) <;> rfl

theorem weighted_draw_proportionality_witness :
    ((Finset.Icc 1 ([5, 3, 1] : List Nat).sum).filter
      (fun r => pickIdx [5, 3, 1] r = some 1)).card = 3
    ∧ pickByRules [demoAlbum] demoStatsOne (fun _ => 2) =
        (weightedPick (eligiblePool [demoAlbum] demoStatsOne)
          (poolTotal (eligiblePool [demoAlbum] demoStatsOne)) (fun _ => 2), 1) :=
  ⟨weighted_draw_proportionality.1 [5, 3, 1] 1 (by decide),
   weighted_draw_proportionality.2.2 [demoAlbum] demoStatsOne (fun _ => 2) (by decide)⟩

/-- C3.  When every active album is vetoed but at least one album exists, the
pool is empty and `pickByRules` falls back to a uniform choice over all
albums, ignoring veto state: with random value `u` it returns the `u`-th album,
and (for a duplicate-free album list) each album is selected by exactly one of
the `n` possible uniform random values — an equal `1/n` share. -/
theorem all_vetoed_uniform_fallback (albums : List Album) (stats : JStr → Option Stats)
    (hne : albums ≠ []) (hall : ∀ a ∈ albums, hasBlockFromStats (stats a.id) = true) :
    (∀ (u : Nat) (hu : u < albums.length),
      pickByRules albums stats (fun _ => u) = (some albums[u], 1))
    ∧ (albums.Nodup → ∀ (i : Nat) (hi : i < albums.length),
        ((Finset.range albums.length).filter
          (fun u => (pickByRules albums stats (fun _ => u)).1 = some albums[i])).card = 1) := by
  have hpool : eligiblePool albums stats = [] := by
    unfold eligiblePool ratedPool
    rw [List.filter_eq_nil_iff]
    intro x hx
    rcases List.mem_map.mp hx with ⟨a, ha, rfl⟩
    simp [hall a ha]
  have hne2 : albums.isEmpty = false := by simpa [List.isEmpty_iff] using hne
  have hfirst : ∀ (u : Nat),
      pickByRules albums stats (fun _ => u) = (albums[u]?, 1) := by
    intro u
    simp [pickByRules, hpool, hne2]
  constructor
  · intro u hu
    rw [hfirst u, List.getElem?_eq_getElem hu]
  · intro hnd i hi
    have hset : (Finset.range albums.length).filter
        (fun u => (pickByRules albums stats (fun _ => u)).1 = some albums[i]) = {i} := by
      ext u
      simp only [Finset.mem_filter, Finset.mem_range, Finset.mem_singleton]
      constructor
      · rintro ⟨hu, hv⟩
        rw [hfirst u] at hv
        simp only [List.getElem?_eq_getElem hu, Option.some.injEq] at hv
        exact (List.Nodup.getElem_inj_iff hnd).mp hv
      · intro hui
        refine ⟨hui ▸ hi, ?_⟩
        rw [hui, hfirst i]
        simp [List.getElem?_eq_getElem hi]
    rw [hset, Finset.card_singleton]

theorem all_vetoed_uniform_fallback_witness :
    pickByRules [demoAlbum, demoAlbum2] demoStatsVeto (fun _ => 1) = (some demoAlbum2, 1)
    ∧ ((Finset.range ([demoAlbum, demoAlbum2] : List Album).length).filter
        (fun u => (pickByRules [demoAlbum, demoAlbum2] demoStatsVeto (fun _ => u)).1 =
          some demoAlbum)).card = 1 :=
  ⟨(all_vetoed_uniform_fallback [demoAlbum, demoAlbum2] demoStatsVeto (by decide)
      (by decide)).1 1 (by decide),
   (all_vetoed_uniform_fallback [demoAlbum, demoAlbum2] demoStatsVeto (by decide)
      (by decide)).2 (by decide) 0 (by decide)⟩

theorem append_sep_inj {x₁ x₂ y₁ y₂ : JStr} (h₁ : ':' ∉ x₁) (h₂ : ':' ∉ x₂)
    (h : x₁ ++ ':' :: ':' :: y₁ = x₂ ++ ':' :: ':' :: y₂) : x₁ = x₂ ∧ y₁ = y₂ := by
  induction x₁ generalizing x₂ with
  | nil =>
    cases x₂ with
    | nil => simpa using h
    | cons b xs =>
      simp only [List.nil_append, List.cons_append, List.cons.injEq] at h
      exact absurd (h.1 ▸ List.mem_cons_self b xs) h₂
  | cons a xs ih =>
    cases x₂ with
    | nil =>
      simp only [List.cons_append, List.nil_append, List.cons.injEq] at h
      exact absurd (h.1 ▸ List.mem_cons_self a xs) h₁
    | cons b ys =>
      simp only [List.cons_append, List.cons.injEq] at h
      obtain ⟨rfl, h2⟩ := h
      have hr := ih (fun hm => h₁ (List.mem_cons_of_mem _ hm))
        (fun hm => h₂ (List.mem_cons_of_mem _ hm)) h2
      exact ⟨by rw [hr.1], hr.2⟩

/-- C6 as amended.  The admission-time duplicate check trims and case-folds the
incoming labels and case-folds (only) the stored labels — it performs no
internal-whitespace collapsing: provided no `:` occurs in the compared title
labels (so the `::`-joined keys decompose uniquely), it reports a duplicate
exactly when some stored album's case-folded pair equals the trimmed,
case-folded incoming pair. -/
theorem duplicate_check_trim_casefold (title artist : JStr) (albums : List Album)
    (hA : ∀ al ∈ albums, ':' ∉ lowerL al.title) (hT : ':' ∉ lowerL (trimL title)) :
    isExactDuplicate title artist albums = true ↔
      ∃ al ∈ albums, lowerL al.title = lowerL (trimL title)
        ∧ lowerL al.artist = lowerL (trimL artist) := by
  unfold isExactDuplicate
  rw [List.any_eq_true]
  constructor
  · rintro ⟨al, hal, hkey⟩
    have hk : dupKey al.title al.artist = dupKey (trimL title) (trimL artist) :=
      beq_iff_eq.mp hkey
    unfold dupKey at hk
    obtain ⟨e1, e2⟩ := append_sep_inj (hA al hal) hT hk
    exact ⟨al, hal, e1, e2⟩
  · rintro ⟨al, hal, e1, e2⟩
    refine ⟨al, hal, beq_iff_eq.mpr ?_⟩
    unfold dupKey
    rw [e1, e2]

theorem duplicate_check_trim_casefold_witness :
    isExactDuplicate (" Blue".data) ("JONI MITCHELL".data) [blueAlbum] = true :=
  (duplicate_check_trim_casefold (" Blue".data) ("JONI MITCHELL".data) [blueAlbum]
    (by decide) (by decide)).mpr ⟨blueAlbum, by decide, by decide, by decide⟩

/-- C6 counterexample.  On the specification's own example the code disagrees
with the claim: with `("blue", "joni mitchell")` stored, the input
`("Blue ", " JONI   MITCHELL")` is NOT reported as a duplicate by `addAlbum`
(the internal whitespace run is not collapsed), although the claimed
normalization declares the pairs equal. -/
theorem duplicate_whitespace_counterexample :
    isExactDuplicate ("Blue ".data) (" JONI   MITCHELL".data) [blueAlbum] = false
    ∧ specIsExactDuplicate ("Blue ".data) (" JONI   MITCHELL".data) [blueAlbum] = true := by
  constructor
  · decide
  · decide

theorem myVotesOf_setUserVotes {uA uB : JStr} (hAB : uA ≠ uB) (rows newRows : List VoteRow)
    (hnew : ∀ r ∈ newRows, r.user = uB) :
    myVotesOf uA (setUserVotes uB newRows rows) = myVotesOf uA rows := by
  funext alb
  unfold myVotesOf setUserVotes
  rw [List.filter_append]
  have h1 : newRows.filter (fun r => r.user == uA && r.album == alb) = [] := by
    rw [List.filter_eq_nil_iff]
    intro r hr hq
    simp only [Bool.and_eq_true, beq_iff_eq] at hq
    have hu2 : r.user = uA := hq.1
    rw [hnew r hr] at hu2
    exact hAB hu2.symm
  have h2 : (rows.filter (fun r => !(r.user == uB))).filter
      (fun r => r.user == uA && r.album == alb) =
      rows.filter (fun r => r.user == uA && r.album == alb) := by
    rw [List.filter_filter]
    apply List.filter_congr
    intro r _
    by_cases h : r.user = uA
    · have huB : (r.user == uB) = false := by
        rw [beq_eq_false_iff_ne, h]
        exact hAB
      rw [huB]
      simp
    · have : (r.user == uA) = false := by rwa [beq_eq_false_iff_ne]
      simp [this]
  rw [h1, h2, List.append_nil]

/-- C9.  Noninterference: the personal ranking depends only on the current
user's own vote rows.  If user `uB`'s rows are replaced by any other rows of
`uB` while user `uA`'s rows are untouched, `uA`'s computed order is
unchanged. -/
theorem rank_privacy (albums : List Album) (rows newRows : List VoteRow) (uA uB : JStr)
    (hAB : uA ≠ uB) (hnew : ∀ r ∈ newRows, r.user = uB) :
    rankAlbumsByMyVote albums (myVotesOf uA (setUserVotes uB newRows rows)) =
      rankAlbumsByMyVote albums (myVotesOf uA rows) := by
  rw [myVotesOf_setUserVotes hAB rows newRows hnew]

theorem rank_privacy_witness :
    rankAlbumsByMyVote [tieAlbumA] (myVotesOf ['u']
        (setUserVotes ['v'] [⟨['v'], ['1'], 3⟩] [⟨['u'], ['1'], 1⟩])) =
      rankAlbumsByMyVote [tieAlbumA] (myVotesOf ['u'] [⟨['u'], ['1'], 1⟩]) :=
  rank_privacy [tieAlbumA] [⟨['u'], ['1'], 1⟩] [⟨['v'], ['1'], 3⟩] ['u'] ['v']
    (by decide) (by decide)

theorem localeCompareM_neg_iff (a b : JStr) : localeCompareM a b < 0 ↔ icuKey a < icuKey b := by
  unfold localeCompareM
  split_ifs with h1 h2
  · simp [h1]
  · simp [h1]
  · simp [h1]

theorem localeCompareM_zero_iff (a b : JStr) : localeCompareM a b = 0 ↔ icuKey a = icuKey b := by
  unfold localeCompareM
  split_ifs with h1 h2
  · simp [ne_of_lt h1]
  · simp [ne_of_gt h2]
  · simp [le_antisymm (not_lt.mp h2) (not_lt.mp h1)]

theorem localeCompareM_nonpos_iff (a b : JStr) : localeCompareM a b ≤ 0 ↔ icuKey a ≤ icuKey b := by
  unfold localeCompareM
  split_ifs with h1 h2
  · simp [le_of_lt h1]
  · simp [not_le.mpr h2]
  · simp [not_lt.mp h2]

theorem rankKey_le_iff (v : JStr → Option Nat) (a b : Album) :
    rankKey v a ≤ rankKey v b ↔
      (voteVal v a < voteVal v b ∨
        (voteVal v a = voteVal v b ∧
          (localeCompareM a.title b.title < 0 ∨
            (localeCompareM a.title b.title = 0 ∧ localeCompareM a.artist b.artist ≤ 0)))) := by
  unfold rankKey
  rw [Prod.Lex.le_iff, Prod.Lex.le_iff]
  simp only [← localeCompareM_neg_iff, ← localeCompareM_zero_iff, ← localeCompareM_nonpos_iff]

theorem cmpAlbums_nonpos_iff (v : JStr → Option Nat) (a b : Album) :
    cmpAlbums v a b ≤ 0 ↔ rankKey v a ≤ rankKey v b := by
  unfold cmpAlbums
  rw [rankKey_le_iff]
  split_ifs with h1 h2
  · constructor
    · intro h
      left
      have hlt : (voteVal v a : Int) < voteVal v b := lt_of_le_of_ne (by omega) h1
      exact_mod_cast hlt
    · rintro (h | ⟨h, _⟩)
      · have hlt : (voteVal v a : Int) < voteVal v b := by exact_mod_cast h
        omega
      · exact absurd (by exact_mod_cast h) h1
  · have hveq : voteVal v a = voteVal v b := by exact_mod_cast not_ne_iff.mp h1
    have hkt : (localeCompareM a.title b.title = 0) ↔ False := by simp [h2]
    simp only [hveq, lt_irrefl, hkt, false_and, or_false, true_and, false_or]
    omega
  · have hveq : voteVal v a = voteVal v b := by exact_mod_cast not_ne_iff.mp h1
    have ht0 : localeCompareM a.title b.title = 0 := not_ne_iff.mp h2
    rw [hveq, ht0]
    constructor
    · intro h
      exact Or.inr ⟨rfl, Or.inr ⟨rfl, h⟩⟩
    · rintro (h | ⟨_, h | ⟨_, h⟩⟩)
      · exact absurd h (lt_irrefl _)
      · exact absurd h (by omega)
      · exact h

theorem rank_le_trans (v : JStr → Option Nat) :
    ∀ (a b c : Album), decide (cmpAlbums v a b ≤ 0) = true →
      decide (cmpAlbums v b c ≤ 0) = true → decide (cmpAlbums v a c ≤ 0) = true := by
  intro a b c hab hbc
  rw [decide_eq_true_eq, cmpAlbums_nonpos_iff] at hab hbc ⊢
  exact le_trans hab hbc

theorem rank_le_total (v : JStr → Option Nat) :
    ∀ (a b : Album),
      (decide (cmpAlbums v a b ≤ 0) || decide (cmpAlbums v b a ≤ 0)) = true := by
  intro a b
  rw [Bool.or_eq_true, decide_eq_true_eq, decide_eq_true_eq, cmpAlbums_nonpos_iff,
    cmpAlbums_nonpos_iff]
  exact le_total _ _

/-- C8 as amended.  `rankAlbumsByMyVote` produces a permutation of the album
list that is sorted ascending by the current user's own vote value with
unvoted albums mapped to the sentinel 99 (larger than every real preference
value), ties broken by the title comparison and then the artist comparison —
but the string comparisons are `localeCompare` (locale collation: primary
comparison case-insensitive, lowercase before uppercase on primary ties), not
case-sensitive-as-typed code-point lexicographic order. -/
theorem rank_order_spec (albums : List Album) (v : JStr → Option Nat) :
    (rankAlbumsByMyVote albums v).Perm albums
    ∧ List.Pairwise (fun a b =>
        voteVal v a < voteVal v b ∨
          (voteVal v a = voteVal v b ∧
            (localeCompareM a.title b.title < 0 ∨
              (localeCompareM a.title b.title = 0 ∧ localeCompareM a.artist b.artist ≤ 0))))
        (rankAlbumsByMyVote albums v) := by
  constructor
  · exact List.mergeSort_perm albums _
  · have hs := List.sorted_mergeSort (rank_le_trans v) (rank_le_total v) albums
    refine hs.imp ?_
    intro a b h
    rw [decide_eq_true_eq, cmpAlbums_nonpos_iff, rankKey_le_iff] at h
    exact h

unseal List.merge List.mergeSort in
/-- C8 counterexample.  With no votes cast, albums titled `"a"` and `"B"` tie
on the vote key; the code (`localeCompare`) orders `"a"` before `"B"`
(case-insensitive primary collation), while the claimed
case-sensitive-as-typed code-point comparison orders `"B"` (code 66) before
`"a"` (code 97) — the computed order differs from the claimed one. -/
theorem rank_tiebreak_counterexample :
    rankAlbumsByMyVote [tieAlbumA, tieAlbumB] (fun _ => none) = [tieAlbumA, tieAlbumB]
    ∧ specRankAlbumsByMyVote [tieAlbumA, tieAlbumB] (fun _ => none) = [tieAlbumB, tieAlbumA]
    ∧ rankAlbumsByMyVote [tieAlbumA, tieAlbumB] (fun _ => none) ≠
        specRankAlbumsByMyVote [tieAlbumA, tieAlbumB] (fun _ => none) := by
  refine ⟨by decide, by decide, by decide⟩

theorem levSpec_zero_left (a b : JStr) (j : Nat) : levSpec a b 0 j = j := by
  simp [levSpec]

theorem levSpec_zero_right (a b : JStr) (i : Nat) : levSpec a b i 0 = i := by
  cases i with
  | zero => simp [levSpec]
  | succ i => simp [levSpec]

theorem levSpec_succ_succ (a b : JStr) (i j : Nat) :
    levSpec a b (i + 1) (j + 1) =
      min (levSpec a b i (j + 1) + 1)
        (min (levSpec a b (i + 1) j + 1)
          (levSpec a b i j + (if a.getD i ' ' = b.getD j ' ' then 0 else 1))) := by
  rw [levSpec]

theorem levStep_cons (x y : Char) (ys : JStr) (p0 p1 : Nat) (ps : List Nat) (left : Nat) :
    levStep x (y :: ys) (p0 :: p1 :: ps) left =
      min (p1 + 1) (min (left + 1) (p0 + (if x = y then 0 else 1))) ::
        levStep x ys (p1 :: ps)
          (min (p1 + 1) (min (left + 1) (p0 + (if x = y then 0 else 1)))) :=
  rfl

theorem levStep_go (a b : JStr) (i : Nat) :
    ∀ (k j₀ : Nat), j₀ + k = b.length →
      levStep (a.getD i ' ') (b.drop j₀)
          ((List.range' j₀ (k + 1)).map (levSpec a b i)) (levSpec a b (i + 1) j₀) =
        (List.range' (j₀ + 1) k).map (levSpec a b (i + 1)) := by
  intro k
  induction k with
  | zero =>
    intro j₀ h
    have hd : b.drop j₀ = [] := List.drop_eq_nil_iff.mpr (by omega)
    rw [hd]
    rfl
  | succ k ih =>
    intro j₀ h
    have hj : j₀ < b.length := by omega
    have hdrop : b.drop j₀ = b[j₀] :: b.drop (j₀ + 1) := List.drop_eq_getElem_cons hj
    have hrows : (List.range' j₀ (k + 1 + 1)).map (levSpec a b i) =
        levSpec a b i j₀ :: levSpec a b i (j₀ + 1) ::
          (List.range' (j₀ + 1 + 1) k).map (levSpec a b i) := by
      rw [List.range'_succ, List.range'_succ]
      simp only [List.map_cons]
    rw [hdrop, hrows, levStep_cons]
    have hcell : min (levSpec a b i (j₀ + 1) + 1)
        (min (levSpec a b (i + 1) j₀ + 1)
          (levSpec a b i j₀ + (if a.getD i ' ' = b[j₀] then 0 else 1))) =
        levSpec a b (i + 1) (j₀ + 1) := by
      rw [levSpec_succ_succ, List.getD_eq_getElem b ' ' hj]
    rw [hcell, List.range'_succ, List.map_cons]
    congr 1
    have ih2 := ih (j₀ + 1) (by omega)
    rw [List.range'_succ, List.map_cons] at ih2
    exact ih2

theorem levRows_go (a b : JStr) :
    ∀ (xs : JStr) (i₀ : Nat), xs = a.drop i₀ → i₀ ≤ a.length →
      levRows b xs ((List.range' 0 (b.length + 1)).map (levSpec a b i₀)) (i₀ + 1) =
        (List.range' 0 (b.length + 1)).map (levSpec a b a.length) := by
  intro xs
  induction xs with
  | nil =>
    intro i₀ hx hle
    have hlen : i₀ = a.length := by
      have hc := congrArg List.length hx
      simp only [List.length_nil, List.length_drop] at hc
      omega
    rw [levRows, hlen]
  | cons x xs ih =>
    intro i₀ hx hle
    have hi : i₀ < a.length := by
      have hc := congrArg List.length hx
      simp only [List.length_cons, List.length_drop] at hc
      omega
    rw [List.drop_eq_getElem_cons hi] at hx
    have hxeq : x = a.getD i₀ ' ' := by
      rw [List.getD_eq_getElem a ' ' hi]
      exact ((List.cons.injEq x xs _ _).mp hx).1
    have hxs : xs = a.drop (i₀ + 1) := ((List.cons.injEq x xs _ _).mp hx).2
    rw [levRows]
    have hrow : (i₀ + 1) :: levStep x b
          ((List.range' 0 (b.length + 1)).map (levSpec a b i₀)) (i₀ + 1) =
        (List.range' 0 (b.length + 1)).map (levSpec a b (i₀ + 1)) := by
      have hstep := levStep_go a b i₀ b.length 0 (by omega)
      rw [List.drop_zero, levSpec_zero_right] at hstep
      have hRHS : (List.range' 0 (b.length + 1)).map (levSpec a b (i₀ + 1)) =
          (i₀ + 1) :: (List.range' (0 + 1) b.length).map (levSpec a b (i₀ + 1)) := by
        rw [List.range'_succ, List.map_cons, levSpec_zero_right]
      rw [hxeq, hRHS, hstep]
    rw [hrow]
    exact ih (i₀ + 1) hxs (by omega)

theorem levenshtein_eq_levSpec (a b : JStr) :
    levenshtein a b = levSpec a b a.length b.length := by
  unfold levenshtein
  by_cases ha : a.length = 0
  · rw [if_pos ha, ha]
    exact (levSpec_zero_left a b b.length).symm
  · rw [if_neg ha]
    by_cases hb : b.length = 0
    · rw [if_pos hb, hb]
      exact (levSpec_zero_right a b a.length).symm
    · rw [if_neg hb]
      have hmap0 : (List.range' 0 (b.length + 1)).map (levSpec a b 0) =
          List.range' 0 (b.length + 1) := by
        have hcg : ∀ j ∈ List.range' 0 (b.length + 1), levSpec a b 0 j = id j := by
          intro j _
          simpa using levSpec_zero_left a b j
        rw [List.map_congr_left hcg, List.map_id]
      have hrows := levRows_go a b a 0 rfl (Nat.zero_le _)
      rw [hmap0] at hrows
      simp only [Nat.zero_add] at hrows
      rw [List.range_eq_range', hrows]
      have hlt : b.length <
          ((List.range' 0 (b.length + 1)).map (levSpec a b a.length)).length := by
        simp
      rw [List.getD_eq_getElem _ _ hlt]
      simp [List.getElem_range']

theorem scoredKey_le_iff (x y : JStr × Nat) :
    scoredKey x ≤ scoredKey y ↔
      (x.2 < y.2 ∨ (x.2 = y.2 ∧ localeCompareM x.1 y.1 ≤ 0)) := by
  unfold scoredKey
  rw [Prod.Lex.le_iff]
  simp only [← localeCompareM_nonpos_iff]

theorem cmpScored_nonpos_iff (x y : JStr × Nat) :
    cmpScored x y ≤ 0 ↔ scoredKey x ≤ scoredKey y := by
  unfold cmpScored
  rw [scoredKey_le_iff]
  split_ifs with h1
  · constructor
    · intro h
      left
      have hlt : (x.2 : Int) < y.2 := lt_of_le_of_ne (by omega) h1
      exact_mod_cast hlt
    · rintro (h | ⟨h, _⟩)
      · have hlt : (x.2 : Int) < y.2 := by exact_mod_cast h
        omega
      · exact absurd (by exact_mod_cast h) h1
  · have hveq : x.2 = y.2 := by exact_mod_cast not_ne_iff.mp h1
    rw [hveq]
    constructor
    · intro h
      exact Or.inr ⟨rfl, h⟩
    · rintro (h | ⟨_, h⟩)
      · exact absurd h (lt_irrefl _)
      · exact h

theorem scored_le_trans :
    ∀ (x y z : JStr × Nat), decide (cmpScored x y ≤ 0) = true →
      decide (cmpScored y z ≤ 0) = true → decide (cmpScored x z ≤ 0) = true := by
  intro x y z hxy hyz
  rw [decide_eq_true_eq, cmpScored_nonpos_iff] at hxy hyz ⊢
  exact le_trans hxy hyz

theorem scored_le_total :
    ∀ (x y : JStr × Nat),
      (decide (cmpScored x y ≤ 0) || decide (cmpScored y x ≤ 0)) = true := by
  intro x y
  rw [Bool.or_eq_true, decide_eq_true_eq, decide_eq_true_eq, cmpScored_nonpos_iff,
    cmpScored_nonpos_iff]
  exact le_total _ _

/-- C7 as amended.  `suggestClose` (at the default maximum distance 2) returns
at most 5 candidates; when the normalized input is nonempty it returns exactly
`min 5 k` of them, where `k` is the number of candidates at Levenshtein
distance at most 2 between normalized input and normalized candidate; every
returned string is a candidate at distance at most 2; the output is ordered by
ascending distance with ties broken by `localeCompare` collation (not by
code-point lexicographic order); an input normalizing to the empty string
yields no suggestions; and the distance function is exactly the textbook
dynamic-programming recurrence `levSpec` (single-character insertions,
deletions, substitutions). -/
theorem suggest_close_spec (input : JStr) (cands : List JStr) :
    (normL input = [] → suggestClose input cands 2 = [])
    ∧ (suggestClose input cands 2).length ≤ 5
    ∧ (normL input ≠ [] →
        (suggestClose input cands 2).length =
          min 5 ((cands.filter
            (fun c => levenshtein (normL input) (normL c) ≤ 2)).length))
    ∧ (∀ c ∈ suggestClose input cands 2,
        c ∈ cands ∧ levenshtein (normL input) (normL c) ≤ 2)
    ∧ List.Pairwise (fun c d =>
        levenshtein (normL input) (normL c) < levenshtein (normL input) (normL d) ∨
          (levenshtein (normL input) (normL c) = levenshtein (normL input) (normL d) ∧
            localeCompareM c d ≤ 0)) (suggestClose input cands 2)
    ∧ (∀ (x y : JStr), levenshtein x y = levSpec x y x.length y.length) := by
  by_cases hinp : normL input = []
  · have hempty : suggestClose input cands 2 = [] := by
      unfold suggestClose
      rw [if_pos hinp]
    refine ⟨fun _ => hempty, ?_, fun h => absurd hinp h, ?_, ?_,
      fun x y => levenshtein_eq_levSpec x y⟩
    · rw [hempty]
      simp
    · rw [hempty]
      intro c hc
      simp at hc
    · rw [hempty]
      exact List.Pairwise.nil
  · have hform : suggestClose input cands 2 =
        ((((cands.map (fun c => (c, levenshtein (normL input) (normL c)))).mergeSort
            (fun x y => decide (cmpScored x y ≤ 0))).filter
          (fun x => x.2 ≤ 2)).take 5).map (fun x => x.1) := by
      unfold suggestClose
      rw [if_neg hinp]
    have hperm : ((cands.map (fun c => (c, levenshtein (normL input) (normL c)))).mergeSort
        (fun x y => decide (cmpScored x y ≤ 0))).Perm
        (cands.map (fun c => (c, levenshtein (normL input) (normL c)))) :=
      List.mergeSort_perm _ _
    have hsnd : ∀ x ∈ ((cands.map (fun c => (c, levenshtein (normL input) (normL c)))).mergeSort
        (fun x y => decide (cmpScored x y ≤ 0))),
        x.2 = levenshtein (normL input) (normL x.1) := by
      intro x hx
      rcases List.mem_map.mp (hperm.mem_iff.mp hx) with ⟨c, _, rfl⟩
      rfl
    have hfst : ∀ x ∈ ((cands.map (fun c => (c, levenshtein (normL input) (normL c)))).mergeSort
        (fun x y => decide (cmpScored x y ≤ 0))), x.1 ∈ cands := by
      intro x hx
      rcases List.mem_map.mp (hperm.mem_iff.mp hx) with ⟨c, hc, rfl⟩
      exact hc
    refine ⟨fun h => absurd h hinp, ?_, fun _ => ?_, ?_, ?_,
      fun x y => levenshtein_eq_levSpec x y⟩
    · rw [hform, List.length_map, List.length_take]
      exact min_le_left _ _
    · rw [hform, List.length_map, List.length_take]
      have hlen : ((((cands.map (fun c => (c, levenshtein (normL input) (normL c)))).mergeSort
            (fun x y => decide (cmpScored x y ≤ 0))).filter
          (fun x => x.2 ≤ 2))).length =
          ((cands.filter (fun c => levenshtein (normL input) (normL c) ≤ 2))).length := by
        rw [← List.countP_eq_length_filter, ← List.countP_eq_length_filter,
          hperm.countP_eq, List.countP_map]
        rfl
      rw [hlen]
    · intro c hc
      rw [hform] at hc
      rcases List.mem_map.mp hc with ⟨x, hx, rfl⟩
      have hx1 : x ∈ (((cands.map (fun c => (c, levenshtein (normL input) (normL c)))).mergeSort
          (fun x y => decide (cmpScored x y ≤ 0))).filter (fun x => x.2 ≤ 2)) :=
        List.mem_of_mem_take hx
      have hx2 := List.mem_of_mem_filter hx1
      have hxp := List.of_mem_filter hx1
      refine ⟨hfst x hx2, ?_⟩
      rw [← hsnd x hx2]
      exact of_decide_eq_true hxp
    · have hs := List.sorted_mergeSort scored_le_trans scored_le_total
        (cands.map (fun c => (c, levenshtein (normL input) (normL c))))
      have hR : List.Pairwise (fun x y : JStr × Nat =>
          levenshtein (normL input) (normL x.1) < levenshtein (normL input) (normL y.1) ∨
            (levenshtein (normL input) (normL x.1) = levenshtein (normL input) (normL y.1) ∧
              localeCompareM x.1 y.1 ≤ 0))
          ((cands.map (fun c => (c, levenshtein (normL input) (normL c)))).mergeSort
            (fun x y => decide (cmpScored x y ≤ 0))) := by
        refine hs.imp_of_mem ?_
        intro x y hx hy h
        rw [decide_eq_true_eq, cmpScored_nonpos_iff, scoredKey_le_iff] at h
        rw [hsnd x hx, hsnd y hy] at h
        exact h
      rw [hform, List.pairwise_map]
      exact List.Pairwise.sublist
        (List.Sublist.trans (List.take_sublist 5 _) (List.filter_sublist _)) hR

unseal List.merge List.mergeSort in
/-- C7 counterexample.  On input `"ab"` with candidates `"aB"` and `"ab"`
(both at distance 0 from the normalized input), the code's `localeCompare`
tie-break returns `["ab", "aB"]` (lowercase first on primary ties), while the
claimed code-point lexicographic tie-break would return `["aB", "ab"]`
(`'B'` is code point 66, `'b'` is 98). -/
theorem suggest_tiebreak_counterexample :
    suggestClose ("ab".data) [("aB".data), ("ab".data)] 2 =
      [("ab".data), ("aB".data)]
    ∧ specSuggestClose ("ab".data) [("aB".data), ("ab".data)] 2 =
      [("aB".data), ("ab".data)]
    ∧ suggestClose ("ab".data) [("aB".data), ("ab".data)] 2 ≠
        specSuggestClose ("ab".data) [("aB".data), ("ab".data)] 2 := by
  refine ⟨by decide, by decide, by decide⟩

theorem suggest_close_spec_witness :
    (suggestClose ("Nevermin".data)
      [("Nevermind".data), ("Nevermindx".data), ("Abbey Road".data)] 2).length = 2 := by
  have h := (suggest_close_spec ("Nevermin".data)
    [("Nevermind".data), ("Nevermindx".data), ("Abbey Road".data)]).2.2.1 (by decide)
  rw [h]
  decide

end JamSession
